import Mathlib

/-!
Verification of the Black Diamond webcam monitor repository.

The repository is two Python scripts. `get.py` (the Bulk Importer) fetches
the full image listing and writes `out.json` as `{"list": [[timestamp, url], ...]}`.
`update.py` (the Incremental Merger) fetches the `numgrabbed` most recent
images newest-first, and for each one - walking the batch in reverse, i.e.
oldest-to-newest - compares its timestamp against the timestamp of the head
of the persisted list (`recent = olddata["list"][0][0]`, re-read on every
iteration) and inserts the image at position 0 when strictly newer; it then
rewrites `out.json` once per loop iteration.

We embed the state as a list of (timestamp, url) pairs (timestamps are
compared through Python's `int(...)`, so we model them as `Int`), the loop
body as `mergeStep`, the whole loop as `mergeRev` / `merge`, and the
per-iteration file writes as a trace semantics `mergeRevTrace` / `runTrace`.
Python errors (IndexError on an empty persisted list, FileNotFoundError on
a missing state file, a too-short API response) are modelled as `none` /
a `false` success flag, occurring before any write of the failing iteration.
-/

/-- One webcam image record as stored in `out.json`: a (timestamp, url) pair. -/
abbrev ImageRecord := Int × String

/-- Number of images fetched per incremental run (`numgrabbed = 2` in `update.py`). -/
def numgrabbed : Nat := 2

/-- One iteration of the merge loop body of `update.py`:
`recent = olddata["list"][0][0]` (IndexError - modelled `none` - when the
persisted list is empty), then `if int(recent) < int(newtime): insert(0, ...)`. -/
def mergeStep (stored : List ImageRecord) (img : ImageRecord) : Option (List ImageRecord) :=
  match stored with
  | [] => none
  | (t, u) :: tl => some (if t < img.1 then img :: (t, u) :: tl else (t, u) :: tl)

/-- The merge loop of `update.py`, run over the batch already reversed into
oldest-to-newest order (the loop header is `for i in range(numgrabbed - 1, -1, -1)`). -/
def mergeRev (stored : List ImageRecord) : List ImageRecord → Option (List ImageRecord)
  | [] => some stored
  | img :: rest =>
    match mergeStep stored img with
    | none => none
    | some s => mergeRev s rest

/-- Final persisted list after one run of the Incremental Merger on a
newest-first fetched batch; `none` models an unhandled Python error. -/
def merge (stored batch : List ImageRecord) : Option (List ImageRecord) :=
  mergeRev stored batch.reverse

/-- Write-trace semantics of the merge loop over the reversed batch: the list
of states written to `out.json` (the loop rewrites the file at the end of every
iteration) paired with whether the loop finished without an unhandled error.
An error aborts the iteration before that iteration's write. -/
def mergeRevTrace (stored : List ImageRecord) :
    List ImageRecord → List (List ImageRecord) × Bool
  | [] => ([], true)
  | img :: rest =>
    match mergeStep stored img with
    | none => ([], false)
    | some s =>
      let p := mergeRevTrace s rest
      (s :: p.1, p.2)

/-- Write-trace of one run of the merge loop on a newest-first batch. -/
def mergeTrace (stored batch : List ImageRecord) : List (List ImageRecord) × Bool :=
  mergeRevTrace stored batch.reverse

/-- A full run of `update.py`. `state?` is the content of `out.json`
(`none` models a missing file, which raises before the loop); `images` is the
fetched `["images"]` array as newest-first (timestamp, url) pairs. The loop
reads `newdata["images"][i]` for `i = numgrabbed-1, ..., 0`, so a response
shorter than `numgrabbed` raises IndexError on the first iteration, before
any write. -/
def runTrace (state? : Option (List ImageRecord)) (images : List ImageRecord) :
    List (List ImageRecord) × Bool :=
  match state? with
  | none => ([], false)
  | some stored =>
    if numgrabbed ≤ images.length then
      mergeRevTrace stored ((images.take numgrabbed).reverse)
    else ([], false)

/-- Timestamps of the persisted list are strictly descending (newest-first,
no duplicates) - the intended ordering invariant of `out.json`. -/
def Descending (l : List ImageRecord) : Prop :=
  List.Chain' (fun a b => a.1 > b.1) l

instance instDecDescending : ∀ l : List ImageRecord, Decidable (Descending l)
  | [] => isTrue List.chain'_nil
  | [_] => isTrue (List.chain'_singleton _)
  | a :: b :: l =>
    match instDecDescending (b :: l) with
    | isTrue h =>
      if hab : a.1 > b.1 then isTrue (List.chain'_cons.mpr ⟨hab, h⟩)
      else isFalse (fun hc => hab (List.chain'_cons.mp hc).1)
    | isFalse h => isFalse (fun hc => h (List.chain'_cons.mp hc).2)

/-- Python's `json.dumps` on one record `[t, url]` (default separators, no
indent; the urls this API returns are plain ASCII, so no escaping arises). -/
def dumpsRecord (p : ImageRecord) : String :=
  "[" ++ toString p.1 ++ ", \"" ++ p.2 ++ "\"]"

/-- Python's `json.dumps` on the persisted state object `\x7b"list": [...]\x7d`,
the exact byte content `update.py` and `get.py` write to `out.json`. -/
def dumpsState (l : List ImageRecord) : String :=
  "\x7b\"list\": [" ++ String.intercalate ", " (l.map dumpsRecord) ++ "]\x7d"

/-- Follows the spec's words (§4.2 step 3): the merge with `recent` carried as
an explicit variable, initialised to the head timestamp at load time and
updated to the inserted image's timestamp on each insertion; the batch
argument is already in oldest-to-newest order. -/
def mergeSpecRecent (recent : Int) (stored : List ImageRecord) :
    List ImageRecord → List ImageRecord
  | [] => stored
  | img :: rest =>
    if recent < img.1 then mergeSpecRecent img.1 (img :: stored) rest
    else mergeSpecRecent recent stored rest

theorem mergeRev_head_bound (l : List ImageRecord) :
    ∀ (t : Int) (u : String) (tl res : List ImageRecord),
      mergeRev ((t, u) :: tl) l = some res →
      ∃ t' u' tl', res = (t', u') :: tl' ∧ t ≤ t' ∧ ∀ p ∈ l, p.1 ≤ t' := by
  induction l with
  | nil =>
    intro t u tl res h
    simp only [mergeRev, Option.some_inj] at h
    exact ⟨t, u, tl, h.symm, le_refl t, by simp⟩
  | cons img rest ih =>
    obtain ⟨it, iu⟩ := img
    intro t u tl res h
    simp only [mergeRev, mergeStep] at h
    by_cases hc : t < it
    · rw [if_pos hc] at h
      obtain ⟨t', u', tl', hres, hle, hall⟩ := ih it iu ((t, u) :: tl) res h
      refine ⟨t', u', tl', hres, le_trans (le_of_lt hc) hle, ?_⟩
      intro p hp
      rcases List.mem_cons.mp hp with hp | hp
      · rw [hp]; exact hle
      · exact hall p hp
    · rw [if_neg hc] at h
      obtain ⟨t', u', tl', hres, hle, hall⟩ := ih t u tl res h
      refine ⟨t', u', tl', hres, hle, ?_⟩
      intro p hp
      rcases List.mem_cons.mp hp with hp | hp
      · rw [hp]; exact le_trans (not_lt.mp hc) hle
      · exact hall p hp

theorem mergeRev_stale (l : List ImageRecord) :
    ∀ (t : Int) (u : String) (tl : List ImageRecord),
      (∀ p ∈ l, p.1 ≤ t) →
      mergeRev ((t, u) :: tl) l = some ((t, u) :: tl) := by
  induction l with
  | nil => intro t u tl _; rfl
  | cons img rest ih =>
    intro t u tl hall
    have h1 : img.1 ≤ t := hall img (List.mem_cons_self img rest)
    simp only [mergeRev, mergeStep, if_neg (not_lt.mpr h1)]
    exact ih t u tl (fun p hp => hall p (List.mem_cons_of_mem img hp))

theorem mergeRevTrace_stale (l : List ImageRecord) :
    ∀ (t : Int) (u : String) (tl : List ImageRecord),
      (∀ p ∈ l, p.1 ≤ t) →
      mergeRevTrace ((t, u) :: tl) l = (List.replicate l.length ((t, u) :: tl), true) := by
  induction l with
  | nil => intro t u tl _; rfl
  | cons img rest ih =>
    intro t u tl hall
    have h1 : img.1 ≤ t := hall img (List.mem_cons_self img rest)
    simp only [mergeRevTrace, mergeStep, if_neg (not_lt.mpr h1)]
    rw [ih t u tl (fun p hp => hall p (List.mem_cons_of_mem img hp))]
    rfl

theorem mergeRev_suffix (l : List ImageRecord) :
    ∀ (stored res : List ImageRecord),
      mergeRev stored l = some res → ∃ pre, res = pre ++ stored := by
  induction l with
  | nil =>
    intro stored res h
    simp only [mergeRev, Option.some_inj] at h
    exact ⟨[], h.symm⟩
  | cons img rest ih =>
    intro stored res h
    match stored with
    | [] => simp [mergeRev, mergeStep] at h
    | (t, u) :: tl =>
      simp only [mergeRev, mergeStep] at h
      by_cases hc : t < img.1
      · rw [if_pos hc] at h
        obtain ⟨pre, hpre⟩ := ih (img :: (t, u) :: tl) res h
        exact ⟨pre ++ [img], by simp [hpre]⟩
      · rw [if_neg hc] at h
        exact ih ((t, u) :: tl) res h

theorem mergeRev_descending (l : List ImageRecord) :
    ∀ (stored res : List ImageRecord),
      Descending stored → mergeRev stored l = some res → Descending res := by
  induction l with
  | nil =>
    intro stored res hd h
    simp only [mergeRev, Option.some_inj] at h
    exact h ▸ hd
  | cons img rest ih =>
    intro stored res hd h
    match stored with
    | [] => simp [mergeRev, mergeStep] at h
    | (t, u) :: tl =>
      simp only [mergeRev, mergeStep] at h
      by_cases hc : t < img.1
      · rw [if_pos hc] at h
        refine ih (img :: (t, u) :: tl) res ?_ h
        exact List.chain'_cons.mpr ⟨hc, hd⟩
      · rw [if_neg hc] at h
        exact ih ((t, u) :: tl) res hd h

theorem mergeRev_eq_specRecent (l : List ImageRecord) :
    ∀ (t : Int) (u : String) (tl : List ImageRecord),
      mergeRev ((t, u) :: tl) l = some (mergeSpecRecent t ((t, u) :: tl) l) := by
  induction l with
  | nil => intro t u tl; rfl
  | cons img rest ih =>
    obtain ⟨it, iu⟩ := img
    intro t u tl
    by_cases hc : t < it
    · simp only [mergeRev, mergeStep, mergeSpecRecent, if_pos hc]
      exact ih it iu ((t, u) :: tl)
    · simp only [mergeRev, mergeStep, mergeSpecRecent, if_neg hc]
      exact ih t u tl

theorem mergeRevTrace_last (l : List ImageRecord) :
    ∀ (stored : List ImageRecord),
      (mergeRevTrace stored l).2 = true →
      mergeRev stored l = some ((mergeRevTrace stored l).1.getLastD stored) := by
  induction l with
  | nil => intro stored _; rfl
  | cons img rest ih =>
    intro stored h
    match stored with
    | [] => simp [mergeRevTrace, mergeStep] at h
    | (t, u) :: tl =>
      simp only [mergeRevTrace, mergeStep] at h ⊢
      simp only [mergeRev, mergeStep]
      rw [List.getLastD_cons]
      exact ih _ h

theorem mergeRev_ascending_all (l : List ImageRecord) :
    ∀ (t : Int) (u : String) (tl : List ImageRecord),
      List.Chain' (fun a b => a.1 < b.1) l →
      (∀ p ∈ l.head?, t < p.1) →
      mergeRev ((t, u) :: tl) l = some (l.reverse ++ (t, u) :: tl) := by
  induction l with
  | nil => intro t u tl _ _; rfl
  | cons img rest ih =>
    obtain ⟨it, iu⟩ := img
    intro t u tl hchain hhead
    have hc : t < it := hhead (it, iu) (by simp)
    simp only [mergeRev, mergeStep, if_pos hc]
    rw [ih it iu ((t, u) :: tl) (List.chain'_cons'.mp hchain).2
      (fun p hp => (List.chain'_cons'.mp hchain).1 p hp)]
    simp

/-- C1: end-to-end scenario. Persisted `{"list": [[100, "url100"]]}` merged
with newest-first batch `[[102,"url102"], [101,"url101"]]` yields exactly
`[[102,"url102"], [101,"url101"], [100,"url100"]]`; and generally, from any
stored list headed by timestamp 100, the batch `[(103,"c"), (101,"b")]`
inserts both records, giving head timestamps 103, 101, 100, ... -/
theorem C1_end_to_end_scenario :
    merge [((100 : Int), "url100")] [((102 : Int), "url102"), ((101 : Int), "url101")] =
      some [((102 : Int), "url102"), ((101 : Int), "url101"), ((100 : Int), "url100")] ∧
    ∀ (u : String) (tl : List ImageRecord),
      merge (((100 : Int), u) :: tl) [((103 : Int), "c"), ((101 : Int), "b")] =
        some (((103 : Int), "c") :: ((101 : Int), "b") :: ((100 : Int), u) :: tl) := by
  constructor
  · decide
  · intro u tl
    simp [merge, mergeRev, mergeStep]

/-- C2: ordering invariant. If the persisted list's timestamps are strictly
descending, then after any successful run of the merger on any fetched batch
the resulting list's timestamps are still strictly descending, so no
duplicate timestamps appear. -/
theorem C2_ordering_invariant (stored batch res : List ImageRecord)
    (hd : Descending stored) (hm : merge stored batch = some res) :
    Descending res :=
  mergeRev_descending batch.reverse stored res hd hm

theorem C2_ordering_invariant_witness :
    Descending [((100 : Int), "url100")] ∧
    merge [((100 : Int), "url100")] [((102 : Int), "a"), ((101 : Int), "b")] =
      some [((102 : Int), "a"), ((101 : Int), "b"), ((100 : Int), "url100")] ∧
    Descending [((102 : Int), "a"), ((101 : Int), "b"), ((100 : Int), "url100")] :=
  ⟨by decide, by decide,
    C2_ordering_invariant [((100 : Int), "url100")] [((102 : Int), "a"), ((101 : Int), "b")]
      [((102 : Int), "a"), ((101 : Int), "b"), ((100 : Int), "url100")] (by decide) (by decide)⟩

/-- C3: idempotence. A successful run of the merger followed by a second run
on the same fetched batch leaves the list of the first run unchanged: the
second run inserts nothing. -/
theorem C3_idempotent (stored batch res : List ImageRecord)
    (hm : merge stored batch = some res) : merge res batch = some res := by
  match stored with
  | [] =>
    unfold merge at hm ⊢
    match hb : batch.reverse with
    | [] =>
      rw [hb] at hm
      simp only [mergeRev, Option.some_inj] at hm
      subst hm
      rfl
    | img :: rest =>
      rw [hb] at hm
      simp [mergeRev, mergeStep] at hm
  | (t, u) :: tl =>
    obtain ⟨t', u', tl', hres, _, hall⟩ :=
      mergeRev_head_bound batch.reverse t u tl res hm
    subst hres
    exact mergeRev_stale batch.reverse t' u' tl' hall

theorem C3_idempotent_witness :
    merge [((100 : Int), "u")] [((102 : Int), "a"), ((101 : Int), "b")] =
      some [((102 : Int), "a"), ((101 : Int), "b"), ((100 : Int), "u")] ∧
    merge [((102 : Int), "a"), ((101 : Int), "b"), ((100 : Int), "u")]
        [((102 : Int), "a"), ((101 : Int), "b")] =
      some [((102 : Int), "a"), ((101 : Int), "b"), ((100 : Int), "u")] :=
  ⟨by decide,
    C3_idempotent [((100 : Int), "u")] [((102 : Int), "a"), ((101 : Int), "b")]
      [((102 : Int), "a"), ((101 : Int), "b"), ((100 : Int), "u")] (by decide)⟩

/-- C4: the comparison is strict. A fetched image whose timestamp equals the
current stored head timestamp is not inserted: the loop iteration (and a whole
run on such a batch) leaves the list unchanged. -/
theorem C4_strict_comparison (t : Int) (u v : String) (tl : List ImageRecord) :
    mergeStep ((t, u) :: tl) (t, v) = some ((t, u) :: tl) ∧
    merge ((t, u) :: tl) [(t, v)] = some ((t, u) :: tl) := by
  constructor
  · simp [mergeStep]
  · simp [merge, mergeRev, mergeStep]

/-- C5: no-op on stale data. If every fetched timestamp is at most the stored
head timestamp, the run succeeds with the list unchanged, and every write the
run performs has content byte-identical to the serialization of the prior
list (the content the prior run left in `out.json`). -/
theorem C5_stale_noop (t : Int) (u : String) (tl batch : List ImageRecord)
    (hstale : ∀ p ∈ batch, p.1 ≤ t) :
    merge ((t, u) :: tl) batch = some ((t, u) :: tl) ∧
    ∀ w ∈ (mergeTrace ((t, u) :: tl) batch).1,
      dumpsState w = dumpsState ((t, u) :: tl) := by
  have hrev : ∀ p ∈ batch.reverse, p.1 ≤ t :=
    fun p hp => hstale p (List.mem_reverse.mp hp)
  constructor
  · exact mergeRev_stale batch.reverse t u tl hrev
  · intro w hw
    rw [mergeTrace, mergeRevTrace_stale batch.reverse t u tl hrev] at hw
    rw [(List.mem_replicate.mp hw).2]

theorem C5_stale_noop_witness :
    (∀ p ∈ ([((150 : Int), "x"), ((100 : Int), "y")] : List ImageRecord), p.1 ≤ (200 : Int)) ∧
    merge [((200 : Int), "s")] [((150 : Int), "x"), ((100 : Int), "y")] =
      some [((200 : Int), "s")] :=
  ⟨by decide,
    (C5_stale_noop 200 "s" [] [((150 : Int), "x"), ((100 : Int), "y")] (by decide)).1⟩

/-- C6: the run processes the fetched batch in reverse of the order received,
and re-reading `recent` from the list head on every iteration makes `recent`
equal the just-inserted timestamp after each insertion: a run of the code
equals the spec's carried-`recent` algorithm applied to the reversed batch. -/
theorem C6_reverse_walk_updated_recent (t : Int) (u : String) (tl batch : List ImageRecord) :
    merge ((t, u) :: tl) batch =
      some (mergeSpecRecent t ((t, u) :: tl) batch.reverse) :=
  mergeRev_eq_specRecent batch.reverse t u tl

/-- C7 fails as stated: with stored head 100 and the newest-first batch
`[(103, "a"), (103, "b")]` (two images sharing a timestamp), the oldest of the
fetched timestamps, 103, is strictly greater than 100, yet only `(103, "b")`
is inserted - `(103, "a")` is compared against the freshly inserted head 103
and dropped, so not all K images are inserted. -/
theorem C7_counterexample :
    (∀ p ∈ ([((103 : Int), "a"), ((103 : Int), "b")] : List ImageRecord).getLast?,
      (100 : Int) < p.1) ∧
    merge [((100 : Int), "u")] [((103 : Int), "a"), ((103 : Int), "b")] =
      some [((103 : Int), "b"), ((100 : Int), "u")] ∧
    ((103 : Int), "a") ∉ ([((103 : Int), "b"), ((100 : Int), "u")] : List ImageRecord) := by
  decide

/-- C7 (amended): if the fetched batch's timestamps are strictly descending
(newest-first with no ties) and the oldest (last) fetched timestamp is
strictly greater than the stored head timestamp, then all K fetched images
are inserted: the result is the whole batch prepended to the stored list. -/
theorem C7_all_newer_inserted (t : Int) (u : String) (tl batch : List ImageRecord)
    (hbatch : Descending batch)
    (hlast : ∀ p ∈ batch.getLast?, t < p.1) :
    merge ((t, u) :: tl) batch = some (batch ++ (t, u) :: tl) := by
  have hasc : List.Chain' (fun a b : ImageRecord => a.1 < b.1) batch.reverse := by
    rw [List.chain'_reverse]
    exact hbatch
  have hhead : ∀ p ∈ batch.reverse.head?, t < p.1 := by
    rw [List.head?_reverse]
    exact hlast
  have h := mergeRev_ascending_all batch.reverse t u tl hasc hhead
  rw [merge, h, List.reverse_reverse]

theorem C7_all_newer_inserted_witness :
    Descending [((103 : Int), "c"), ((101 : Int), "b")] ∧
    (∀ p ∈ ([((103 : Int), "c"), ((101 : Int), "b")] : List ImageRecord).getLast?,
      (100 : Int) < p.1) ∧
    merge [((100 : Int), "u")] [((103 : Int), "c"), ((101 : Int), "b")] =
      some ([((103 : Int), "c"), ((101 : Int), "b")] ++ [((100 : Int), "u")]) :=
  ⟨by decide, by decide,
    C7_all_newer_inserted 100 "u" [] [((103 : Int), "c"), ((101 : Int), "b")]
      (by decide) (by decide)⟩

/-- C8: a run with a missing state file, or with an empty persisted list,
fails with an unhandled error having performed no insertion and no write
(the write trace is empty and the success flag is false), whatever the
fetched response is. -/
theorem C8_fails_on_missing_or_empty_state (images : List ImageRecord) :
    runTrace none images = ([], false) ∧
    runTrace (some []) images = ([], false) := by
  refine ⟨rfl, ?_⟩
  match images with
  | [] => rfl
  | [a] => rfl
  | a :: b :: rest =>
    simp [runTrace, numgrabbed, mergeRevTrace, mergeStep]

/-- C9: writing the file once per loop iteration is equivalent to a single
write after the whole batch: when a run succeeds, the final on-disk content
(the last write of the trace, or the prior content if nothing was written)
is exactly the fully merged list a single end-of-batch write would produce. -/
theorem C9_single_write_equivalent (stored batch : List ImageRecord)
    (ws : List (List ImageRecord))
    (hok : mergeTrace stored batch = (ws, true)) :
    merge stored batch = some (ws.getLastD stored) := by
  have hok' : mergeRevTrace stored batch.reverse = (ws, true) := hok
  have h := mergeRevTrace_last batch.reverse stored (by rw [hok'])
  rw [hok'] at h
  exact h

theorem C9_single_write_equivalent_witness :
    mergeTrace [((100 : Int), "u")] [((102 : Int), "a"), ((101 : Int), "b")] =
      ([[((101 : Int), "b"), ((100 : Int), "u")],
        [((102 : Int), "a"), ((101 : Int), "b"), ((100 : Int), "u")]], true) ∧
    merge [((100 : Int), "u")] [((102 : Int), "a"), ((101 : Int), "b")] =
      some [((102 : Int), "a"), ((101 : Int), "b"), ((100 : Int), "u")] :=
  ⟨by decide,
    C9_single_write_equivalent [((100 : Int), "u")] [((102 : Int), "a"), ((101 : Int), "b")]
      [[((101 : Int), "b"), ((100 : Int), "u")],
       [((102 : Int), "a"), ((101 : Int), "b"), ((100 : Int), "u")]] (by decide)⟩

/-- C10: frame property. A successful run only prepends: the prior list is
preserved unchanged as a suffix of the resulting list, with zero or more new
records in front of it. -/
theorem C10_frame_suffix (stored batch res : List ImageRecord)
    (hm : merge stored batch = some res) : ∃ pre, res = pre ++ stored :=
  mergeRev_suffix batch.reverse stored res hm

theorem C10_frame_suffix_witness :
    merge [((100 : Int), "u")] [((102 : Int), "a"), ((101 : Int), "b")] =
      some [((102 : Int), "a"), ((101 : Int), "b"), ((100 : Int), "u")] ∧
    ∃ pre, [((102 : Int), "a"), ((101 : Int), "b"), ((100 : Int), "u")] =
      pre ++ [((100 : Int), "u")] :=
  ⟨by decide,
    C10_frame_suffix [((100 : Int), "u")] [((102 : Int), "a"), ((101 : Int), "b")]
      [((102 : Int), "a"), ((101 : Int), "b"), ((100 : Int), "u")] (by decide)⟩
